import Mathlib

/-!
Verification development for the masked-autoencoder repository
(`src/models_mae.py`, `src/engine_finetune.py`).

Tensors are shallowly embedded as index functions (`ℕ → ⋯ → ℤ` or `ℚ`)
or as `List`s of per-token values; `reshape`/`einsum`/`gather` become
index arithmetic, and float values that may be non-finite are embedded
in an explicit `FVal` type.  Machine floats are modelled by `ℚ`: every
operation the claims exercise (data movement, sums, single divisions)
is exact in floats whenever it is exact in `ℚ` at the integer/dyadic
inputs the witnesses use.
-/

/-- `MaskedAutoencoderViT.patchify` (src/models_mae.py:124-136).

The image is a function `imgs c i j` (channel, row, column) over an
`(h*p) × (h*p)` square of 3-channel pixels; `p` is the patch edge and
`h = w = imgs.shape[2] // p`.  The composition
`reshape (N,3,h,p,w,p)` → `einsum nchpwq->nhwpqc` → `reshape (N,L,p²·3)`
sends patch index `l` and within-patch index `d` to channel `d % 3`,
row `(l / w) * p + d / (p*3)`, column `(l % w) * p + (d / 3) % p`. -/
def patchify {α : Type} (p h : ℕ) (imgs : ℕ → ℕ → ℕ → α) : ℕ → ℕ → α :=
  fun l d =>
    imgs (d % 3) ((l / h) * p + d / (p * 3)) ((l % h) * p + (d / 3) % p)

/-- `MaskedAutoencoderViT.unpatchify` (src/models_mae.py:138-150).

`h = w = int(x.shape[1] ** .5)` with the assert `h * w == x.shape[1]`;
the composition `reshape (N,h,w,p,p,3)` → `einsum nhwpqc->nchpwq` →
`reshape (N,3,h*p,h*p)` sends channel `c`, row `i`, column `j` to patch
`(i / p) * w + j / p` and within-patch index `((i % p) * p + j % p) * 3 + c`. -/
def unpatchify {α : Type} (p h : ℕ) (x : ℕ → ℕ → α) : ℕ → ℕ → ℕ → α :=
  fun c i j => x ((i / p) * h + j / p) (((i % p) * p + j % p) * 3 + c)

/-- Non-finite-aware scalar value of a float tensor item: `ℚ` for finite
floats, plus NaN and signed infinities (`math.isfinite` distinguishes them). -/
inductive FVal where
  | nan : FVal
  | pinf : FVal
  | ninf : FVal
  | num : ℚ → FVal
deriving DecidableEq

/-- `math.isfinite` (src/engine_finetune.py:78). -/
def FVal.isFinite : FVal → Bool
  | num _ => true
  | _ => false

/-- python `int()` applied to a nonnegative-or-negative scalar:
truncation toward zero. -/
def pyInt (q : ℚ) : ℤ := q.num.tdiv q.den

/-- `len_keep = int(L * (1 - mask_ratio))` (src/models_mae.py:159). -/
def len_keep (L : ℕ) (r : ℚ) : ℕ := (pyInt ((L : ℚ) * (1 - r))).toNat

/-- `torch.argsort(v, dim=1)` on one row (src/models_mae.py:183,185,293):
the indices `0..v.length-1` sorted so that the values of `v` read along
them ascend (comparison sort; only the ascending-value property of the
result is relied on, matching torch's unspecified tie order). -/
def argsort {α : Type} [LinearOrder α] (d : α) (v : List α) : List ℕ :=
  List.insertionSort (fun i j => v.getD i d ≤ v.getD j d) (List.range v.length)

/-- `torch.gather(x, dim=1, index=ids)` on one row: position `j` of the
result reads `x` at `ids[j]`. -/
def gatherL {α : Type} (x : List α) (ids : List ℕ) (d : α) : List α :=
  ids.map (fun i => x.getD i d)

/-- `ids_shuffle = torch.argsort(noise, dim=1)` on one row (src/models_mae.py:183). -/
def ids_shuffle (noise : List ℚ) : List ℕ := argsort 0 noise

/-- `ids_restore = torch.argsort(ids_shuffle, dim=1)` on one row (src/models_mae.py:185). -/
def ids_restore (noise : List ℚ) : List ℕ := argsort 0 (ids_shuffle noise)

/-- `mask = torch.ones([N, L]); mask[:, :len_keep] = 0` on one row
(src/models_mae.py:194-195). -/
def mask_template (L k : ℕ) : List ℕ :=
  (List.range L).map (fun i => if i < k then 0 else 1)

/-- `mask = torch.gather(mask, dim=1, index=ids_restore)` on one row
(src/models_mae.py:197), composed with the template above. -/
def binMask (L : ℕ) (noise : List ℚ) (k : ℕ) : List ℕ :=
  gatherL (mask_template L k) (ids_restore noise) 0

/-- Per-patch reconstruction loss (src/models_mae.py:320-321): the
elementwise squared error `(pred - target) ** 2` meaned over the last
dimension, with `target = self.patchify(imgs)` — the mean per-patch
squared error against the patchified image. -/
def perPatchLoss (p h : ℕ) (imgs : ℕ → ℕ → ℕ → ℕ → ℚ) (pred : ℕ → ℕ → ℕ → ℚ)
    (n l : ℕ) : ℚ :=
  (∑ d ∈ Finset.range (p * p * 3), (pred n l d - patchify p h (imgs n) l d) ^ 2) /
    ((p * p * 3 : ℕ) : ℚ)

/-- `MaskedAutoencoderViT.forward_loss` (src/models_mae.py:308-324) with
`norm_pix_loss = False` (the constructor default, the branch the claims
describe): `loss = (loss * mask).sum() / mask.sum()` over all `N × L`
entries, `L = h*h`.  Float division is embedded explicitly: `0/0` is
NaN and `x/0` with `x ≠ 0` a signed infinity — the code has no guard on
`mask.sum()`. -/
def forward_loss (p h N : ℕ) (imgs : ℕ → ℕ → ℕ → ℕ → ℚ) (pred : ℕ → ℕ → ℕ → ℚ)
    (mask : ℕ → ℕ → ℚ) : FVal :=
  let num : ℚ := ∑ n ∈ Finset.range N, ∑ l ∈ Finset.range (h * h),
    perPatchLoss p h imgs pred n l * mask n l
  let den : ℚ := ∑ n ∈ Finset.range N, ∑ l ∈ Finset.range (h * h), mask n l
  if den = 0 then (if num = 0 then FVal.nan else if 0 < num then FVal.pinf else FVal.ninf)
  else FVal.num (num / den)

/-- Optimizer-relevant state of `train_one_epoch`'s batch loop: the
batch counter `data_iter_step` and the number of optimizer update steps
performed so far (`loss_scaler(..., update_grad=True)` calls,
src/engine_finetune.py:83-85). -/
structure TrainState where
  stepIdx : ℕ
  optSteps : ℕ
deriving DecidableEq

/-- A finite-loss iteration of the batch loop
(src/engine_finetune.py:82-87): the scaled backward always runs; the
optimizer update happens only when `(data_iter_step + 1) % accum_iter == 0`. -/
def stepOk (accum : ℕ) (s : TrainState) : TrainState :=
  { stepIdx := s.stepIdx + 1,
    optSteps := s.optSteps + (if (s.stepIdx + 1) % accum = 0 then 1 else 0) }

/-- One iteration of `train_one_epoch`'s batch loop for a batch whose
criterion evaluates to `loss` (src/engine_finetune.py:76-87): the loss
value is checked with `math.isfinite` before the `loss_scaler` call, and
a non-finite loss calls `sys.exit(1)` — modelled by `Except.error`
carrying the state at the moment the process aborts. -/
def trainBatch (accum : ℕ) (s : TrainState) (loss : FVal) : Except TrainState TrainState :=
  if loss.isFinite then Except.ok (stepOk accum s) else Except.error s

/-- The batch loop of `train_one_epoch` (src/engine_finetune.py:50-108)
over the list of per-batch loss values. -/
def trainEpoch (accum : ℕ) (s : TrainState) : List FVal → Except TrainState TrainState
  | [] => Except.ok s
  | l :: ls =>
    match trainBatch accum s l with
    | Except.ok s1 => trainEpoch accum s1 ls
    | Except.error s1 => Except.error s1

/-- Block-strategy noise cell (src/models_mae.py:161-176).  For
`mask_type == "block"` (`isKeep = true`) the grid starts at 1 and the
axis-aligned square window of side `wL` at offset `(wX, wY)` is set to 0
(noise 0 = keep); for the other block types (`isKeep = false`) the grid
starts at 0 and the window is set to 1 (noise 1 = remove). -/
def blockNoise (isKeep : Bool) (wL wX wY y x : ℕ) : ℕ :=
  if wY ≤ y ∧ y < wY + wL ∧ wX ≤ x ∧ x < wX + wL then
    (if isKeep then 0 else 1)
  else
    (if isKeep then 1 else 0)

/-- `noise.reshape(N, L)` on one row (src/models_mae.py:176): the grid
flattened row-major, `L = sqL * sqL`. -/
def blockNoiseRow (isKeep : Bool) (sqL wL wX wY : ℕ) : List ℕ :=
  (List.range (sqL * sqL)).map
    (fun i => blockNoise isKeep wL wX wY (i / sqL) (i % sqL))

/-- Number of positions of the flattened block-noise row marked keep
(noise value 0). -/
def keptMarked (isKeep : Bool) (sqL wL wX wY : ℕ) : ℕ :=
  ((Finset.range (sqL * sqL)).filter
    (fun i => blockNoise isKeep wL wX wY (i / sqL) (i % sqL) = 0)).card

/-- Number of positions of the flattened block-noise row marked removed
(noise value 1). -/
def removedMarked (isKeep : Bool) (sqL wL wX wY : ℕ) : ℕ :=
  ((Finset.range (sqL * sqL)).filter
    (fun i => blockNoise isKeep wL wX wY (i / sqL) (i % sqL) = 1)).card

/-- The two asserts guarding the block strategies
(src/models_mae.py:178-179): the ascending sort of the noise row must
be `len_keep` zeros followed by `L - len_keep` ones. -/
def blockAssertOk (row : List ℕ) (k : ℕ) : Prop :=
  (List.insertionSort (· ≤ ·) row).take k = List.replicate k 0 ∧
  (List.insertionSort (· ≤ ·) row).drop k = List.replicate (row.length - k) 1

/-- Forward-mode autodiff scalar: a pair `(value, derivative)` where the
derivative is taken with respect to one fixed scalar parameter of the
model; addition is componentwise (the `Prod` instance) and
multiplication follows the product rule. -/
def dMul (a b : ℚ × ℚ) : ℚ × ℚ := (a.1 * b.1, a.1 * b.2 + a.2 * b.1)

/-- `Tensor.detach()` (src/models_mae.py:340): same value, removed from
the computation graph — derivative zero. -/
def detach (a : ℚ × ℚ) : ℚ × ℚ := (a.1, 0)

/-- The linear classification head `self.fc = nn.Linear(embed_dim,
num_classes)` (src/models_mae.py:90) on dual scalars:
`out i = Σ_j w i j * x j + b i`. -/
def fc (dEnc : ℕ) (w : ℕ → ℕ → ℚ × ℚ) (b : ℕ → ℚ × ℚ) (x : ℕ → ℚ × ℚ)
    (i : ℕ) : ℚ × ℚ :=
  (∑ j ∈ Finset.range dEnc, dMul (w i j) (x j)) + b i

/-- `outputs = self.fc(cls_feats.detach())` (src/models_mae.py:340). -/
def forward_cls_outputs (dEnc : ℕ) (w : ℕ → ℕ → ℚ × ℚ) (b : ℕ → ℚ × ℚ)
    (cls_feats : ℕ → ℚ × ℚ) (i : ℕ) : ℚ × ℚ :=
  fc dEnc w b (fun j => detach (cls_feats j)) i

/-- Tail of `forward_encoder` (src/models_mae.py:221): the final
`self.norm` applied to the post-blocks token sequence `z` (LayerNorm
acts per token; `normF` is the opaque norm collaborator, tokens are
collapsed to scalars). -/
def encoder_latent (normF : ℚ → ℚ) (z : List ℚ) : List ℚ := z.map normF

/-- Classification-feature selection in `forward`
(src/models_mae.py:334-339): the pooled branch takes the mean of the
non-class tokens of `latent` and applies `self.fc_norm`; the non-pooled
branch computes `cls_feats = self.norm(latent)` — applying `self.norm`
to the already-normalized encoder output again — and takes row 0. -/
def forward_cls_feats (global_pool : Bool) (normF fcNorm : ℚ → ℚ)
    (latent : List ℚ) : ℚ :=
  if global_pool then
    fcNorm ((latent.drop 1).sum / ((latent.drop 1).length : ℚ))
  else
    (latent.map normF).getD 0 0

/-- A python scalar argument: the number `forward`'s `mask_ratio`
parameter expects, or the string `evaluate` actually passes. -/
inductive PyVal where
  | num : ℚ → PyVal
  | str : String → PyVal
deriving DecidableEq

/-- python binary `-`: defined for numbers; `number - string` raises
`TypeError`. -/
def pySub (a b : PyVal) : Except String PyVal :=
  match a, b with
  | PyVal.num x, PyVal.num y => Except.ok (PyVal.num (x - y))
  | _, _ => Except.error "TypeError"

/-- python binary `*` on scalars: defined for numbers, `TypeError`
otherwise (string repetition does not apply to `float * str` with a
non-integer, and is never reached here anyway). -/
def pyMul (a b : PyVal) : Except String PyVal :=
  match a, b with
  | PyVal.num x, PyVal.num y => Except.ok (PyVal.num (x * y))
  | _, _ => Except.error "TypeError"

/-- `len_keep = int(L * (1 - mask_ratio))` (src/models_mae.py:159) under
python dynamic typing: `1 - mask_ratio` is evaluated first. -/
def len_keep_dyn (L : ℕ) (mask_ratio : PyVal) : Except String ℤ := do
  let d ← pySub (PyVal.num 1) mask_ratio
  let m ← pyMul (PyVal.num (L : ℚ)) d
  match m with
  | PyVal.num q => Except.ok (pyInt q)
  | PyVal.str _ => Except.error "TypeError"

/-- `evaluate` calls `model.forward(images, cls_features)` for an MAE
model (src/engine_finetune.py:137-138), binding the string argument
`cls_features` positionally to `forward`'s `mask_ratio` parameter
(src/models_mae.py:326); `forward_encoder` passes it through to
`random_masking`, whose first use is the arithmetic above
(src/models_mae.py:158-159). -/
def evaluate_mae_len_keep (L : ℕ) (cls_features : String) : Except String ℤ :=
  len_keep_dyn L (PyVal.str cls_features)

/-- The unshuffle stage of `MaskedAutoencoderViT.forward_decoder`
(src/models_mae.py:230-232): `self.mask_token` replicated to fill the
`ids_restore.shape[1] + 1 - x.shape[1]` missing positions, concatenated
after the non-class tokens `x[:, 1:, :]`, then gathered along
`ids_restore`. -/
def decoder_unshuffle {β : Type} (x1 : List β) (maskTok : β)
    (ids_restore : List ℕ) (dflt : β) : List β :=
  gatherL (x1.drop 1 ++ List.replicate (ids_restore.length + 1 - x1.length) maskTok)
    ids_restore dflt

/-- `MaskedAutoencoderViT.forward_decoder` (src/models_mae.py:225-249) on
one sample.  Opaque collaborators passed as parameters: `embedF` =
`self.decoder_embed` (per token), `posEmb` = `self.decoder_pos_embed`
row, `blocks` = the folded `self.decoder_blocks` stack (an arbitrary
sequence transform), `normF` = `self.decoder_norm` (per token), `predF`
= `self.decoder_pred` (per token, into pixel space `γ`); the class token
is re-attached before the pos-embedding add and its output row dropped
at the end. -/
def forward_decoder {α β γ : Type} [Add β] (embedF : α → β) (maskTok : β)
    (posEmb : List β) (blocks : List β → List β) (normF : β → β) (predF : β → γ)
    (dflt : β) (x : List α) (ids_restore : List ℕ) : List γ :=
  let x1 := x.map embedF
  let x_cat := x1.take 1 ++ decoder_unshuffle x1 maskTok ids_restore dflt
  let x2 := List.zipWith (· + ·) x_cat posEmb
  let x3 := blocks x2
  let x4 := x3.map normF
  let x5 := x4.map predF
  x5.drop 1

/-- Body of `MaskedAutoencoderViT.forward_l_decoder`
(src/models_mae.py:251-288) before the final re-gather: ONLY the class
token of the input survives (`cls_features = x[:, :1]`), `FT =
ids_restore.shape[1]` placeholder tokens are appended, the decoder
pos-embedding is added, the latent-decoder blocks / norm / projection
(back into encoder space `α`) are applied, and the class row dropped. -/
def l_decoder_body {α β : Type} [Add β] (embedF : α → β) (maskTok : β)
    (posEmb : List β) (blocks : List β → List β) (normF : β → β) (predF : β → α)
    (x : List α) (ids_restore : List ℕ) : List α :=
  let x1 := x.map embedF
  let x2 := x1.take 1 ++ List.replicate ids_restore.length maskTok
  let x3 := List.zipWith (· + ·) x2 posEmb
  let x4 := blocks x3
  let x5 := x4.map normF
  let x6 := x5.map predF
  x6.drop 1

/-- `MaskedAutoencoderViT.forward_l_decoder` (src/models_mae.py:251-305):
the body above re-gathered along
`ids_keep = torch.argsort(ids_restore)[:, :T-1]`
(src/models_mae.py:293-297), `T = x.shape[1]`. -/
def forward_l_decoder {α β : Type} [Add β] (embedF : α → β) (maskTok : β)
    (posEmb : List β) (blocks : List β → List β) (normF : β → β) (predF : β → α)
    (dflt : α) (x : List α) (ids_restore : List ℕ) : List α :=
  gatherL (l_decoder_body embedF maskTok posEmb blocks normF predF x ids_restore)
    ((argsort 0 ids_restore).take (x.length - 1)) dflt

/-- C1: for every image tensor of shape (N, 3, H, W) with `H == W = h*p`
(indices in range), `unpatchify (patchify x) == x` exactly — the patch
codec round-trips with no precision loss (the maps are pure data
movement, so the statement over exact pixel values `ℤ` is bit-for-bit). -/
theorem unpatchify_patchify {α : Type} (p h : ℕ) (imgs : ℕ → ℕ → ℕ → α)
    (c i j : ℕ) (hc : c < 3) (hi : i < h * p) (hj : j < h * p) :
    unpatchify p h (patchify p h imgs) c i j = imgs c i j := by
  have hp : 0 < p := by
    rcases Nat.eq_zero_or_pos p with rfl | hp
    · simp at hi
    · exact hp
  have hh : 0 < h := by
    rcases Nat.eq_zero_or_pos h with rfl | hh
    · simp at hi
    · exact hh
  unfold unpatchify patchify
  have hjp : j % p < p := Nat.mod_lt _ hp
  have hD3 : ((i % p * p + j % p) * 3 + c) % 3 = c := by
    have : (i % p * p + j % p) * 3 + c = c + (i % p * p + j % p) * 3 := by ring
    rw [this, Nat.add_mul_mod_self_right, Nat.mod_eq_of_lt hc]
  have hDdiv3 : ((i % p * p + j % p) * 3 + c) / 3 = i % p * p + j % p := by
    have : (i % p * p + j % p) * 3 + c = c + (i % p * p + j % p) * 3 := by ring
    rw [this, Nat.add_mul_div_right _ _ (by norm_num : 0 < 3),
      Nat.div_eq_of_lt hc, Nat.zero_add]
  have hpp : ((i % p * p + j % p) * 3 + c) / (p * 3) = i % p := by
    rw [mul_comm p 3, ← Nat.div_div_eq_div_mul, hDdiv3,
      add_comm (i % p * p) (j % p), Nat.add_mul_div_right _ _ hp,
      Nat.div_eq_of_lt hjp, Nat.zero_add]
  have hqq : (((i % p * p + j % p) * 3 + c) / 3) % p = j % p := by
    rw [hDdiv3, add_comm (i % p * p) (j % p), Nat.add_mul_mod_self_right,
      Nat.mod_eq_of_lt hjp]
  have hjph : j / p < h := by
    rw [Nat.div_lt_iff_lt_mul hp]
    exact hj
  have hA : (i / p * h + j / p) / h = i / p := by
    rw [add_comm (i / p * h) (j / p), Nat.add_mul_div_right _ _ hh,
      Nat.div_eq_of_lt hjph, Nat.zero_add]
  have hAm : (i / p * h + j / p) % h = j / p := by
    rw [add_comm (i / p * h) (j / p), Nat.add_mul_mod_self_right,
      Nat.mod_eq_of_lt hjph]
  rw [hD3, hA, hpp, hAm, hqq, Nat.div_add_mod', Nat.div_add_mod']

/-- Witness for C1 at a concrete image: `p = h = 1`, pixel `(0,0,0)`. -/
theorem unpatchify_patchify_witness :
    unpatchify 1 1 (patchify 1 1 (fun c i j => (c : ℤ) + 2 * i + 5 * j)) 0 0 0 =
      (fun c i j => (c : ℤ) + 2 * i + 5 * j) 0 0 0 :=
  unpatchify_patchify 1 1 _ 0 0 0 (by decide) (by decide) (by decide)

theorem argsort_perm {α : Type} [LinearOrder α] (d : α) (v : List α) :
    List.Perm (argsort d v) (List.range v.length) :=
  List.perm_insertionSort _ _

theorem argsort_length {α : Type} [LinearOrder α] (d : α) (v : List α) :
    (argsort d v).length = v.length := by
  simpa using (argsort_perm d v).length_eq

theorem argsort_sorted {α : Type} [LinearOrder α] (d : α) (v : List α) :
    List.Sorted (fun i j => v.getD i d ≤ v.getD j d) (argsort d v) := by
  haveI : IsTotal ℕ (fun i j => v.getD i d ≤ v.getD j d) := ⟨fun _ _ => le_total _ _⟩
  haveI : IsTrans ℕ (fun i j => v.getD i d ≤ v.getD j d) :=
    ⟨fun _ _ _ hab hbc => le_trans hab hbc⟩
  exact List.sorted_insertionSort _ _

theorem map_getD_range {α : Type} (d : α) (v : List α) :
    (List.range v.length).map (fun i => v.getD i d) = v := by
  apply List.ext_getElem
  · simp
  · intro i h1 h2
    simp [List.getElem?_eq_getElem h2]

/-- Reading an in-range position of a list that is a permutation of
`range L` gives a value `< L`. -/
theorem getD_lt_of_perm_range (L : ℕ) (v : List ℕ) (hv : List.Perm v (List.range L))
    (i : ℕ) (hi : i < L) : v.getD i 0 < L := by
  have hlen : v.length = L := by simpa using hv.length_eq
  have hmem : v.getD i 0 ∈ v := by
    rw [List.getD_eq_getElem _ _ (by omega)]
    exact List.getElem_mem _
  have := hv.mem_iff.mp hmem
  simpa using this

/-- Values of a permutation `v` of `range L` read along `argsort v`
ascend through `0, 1, …, L-1`: `v[argsort v [k]] = k`. -/
theorem getD_argsort_of_perm_range (L : ℕ) (v : List ℕ) (hv : List.Perm v (List.range L))
    (k : ℕ) (hk : k < L) : v.getD ((argsort 0 v).getD k 0) 0 = k := by
  have hlen : v.length = L := by simpa using hv.length_eq
  have hperm : List.Perm ((argsort 0 v).map (fun i => v.getD i 0)) v := by
    have h1 : List.Perm ((argsort 0 v).map (fun i => v.getD i 0))
        ((List.range v.length).map (fun i => v.getD i 0)) := (argsort_perm 0 v).map _
    rw [map_getD_range 0 v] at h1
    exact h1
  have hsorted : List.Sorted (· ≤ ·) ((argsort 0 v).map (fun i => v.getD i 0)) := by
    simpa [List.Sorted, List.pairwise_map] using argsort_sorted 0 v
  have hm : (argsort 0 v).map (fun i => v.getD i 0) = List.range L :=
    List.eq_of_perm_of_sorted (hperm.trans hv) hsorted (List.sorted_le_range L)
  have hklen : k < (argsort 0 v).length := by
    rw [argsort_length, hlen]; exact hk
  have hkmap : k < ((argsort 0 v).map (fun i => v.getD i 0)).length := by
    simpa using hklen
  calc v.getD ((argsort 0 v).getD k 0) 0
      = ((argsort 0 v).map (fun i => v.getD i 0)).getD k 0 := by
        rw [List.getD_eq_getElem _ _ hkmap, List.getElem_map,
          List.getD_eq_getElem _ _ hklen]
    _ = (List.range L).getD k 0 := by rw [hm]
    _ = k := by
        rw [List.getD_eq_getElem _ _ (by simpa using hk)]
        simp

/-- A right inverse of a self-map of `[0,L)` is also a left inverse. -/
theorem right_inverse_flip (L : ℕ) (f g : ℕ → ℕ)
    (hf : ∀ i, i < L → f i < L) (hg : ∀ k, k < L → g k < L)
    (hfg : ∀ k, k < L → f (g k) = k) : ∀ i, i < L → g (f i) = i := by
  intro i hi
  let F : Fin L → Fin L := fun x => ⟨f x, hf x x.2⟩
  let G : Fin L → Fin L := fun x => ⟨g x, hg x x.2⟩
  have hFG : ∀ x, F (G x) = x := fun x => Fin.ext (hfg x x.2)
  have hFs : Function.Surjective F := fun y => ⟨G y, hFG y⟩
  have hFi : Function.Injective F := Finite.injective_iff_surjective.mpr hFs
  have h1 : F (G (F ⟨i, hi⟩)) = F ⟨i, hi⟩ := hFG _
  have h2 : G (F ⟨i, hi⟩) = ⟨i, hi⟩ := hFi h1
  exact congrArg Fin.val h2

theorem sum_mask_template (L k : ℕ) : (mask_template L k).sum = L - k := by
  unfold mask_template
  induction L with
  | zero => simp
  | succ n ih =>
      rw [List.range_succ, List.map_append, List.sum_append, ih]
      simp only [List.map_cons, List.map_nil, List.sum_cons, List.sum_nil]
      split <;> omega

theorem pyInt_eq_floor (q : ℚ) (hq : 0 ≤ q) : pyInt q = ⌊q⌋ := by
  unfold pyInt
  rw [Rat.floor_def]
  exact Int.tdiv_eq_ediv (Rat.num_nonneg.mpr hq) (Int.natCast_nonneg _)

/-- C2: `random_masking` invariants (src/models_mae.py:152-199).  For
every sequence length `L`, mask ratio `r ∈ [0,1]` and per-sample noise
row (every batch row and every strategy — the strategies differ only in
the noise fed to `argsort`): `len_keep = ⌊L·(1-r)⌋`, `len_keep ≤ L`,
`ids_restore` is a valid permutation of `[0,L)` satisfying
`ids_restore[ids_shuffle[i]] = i` for all `i`, and the per-sample sum of
the binary mask equals `L - len_keep`. -/
theorem random_masking_invariants (L : ℕ) (r : ℚ) (noise : List ℚ)
    (hlen : noise.length = L) (hr0 : 0 ≤ r) (hr1 : r ≤ 1) :
    len_keep L r = (⌊(L : ℚ) * (1 - r)⌋).toNat ∧
    len_keep L r ≤ L ∧
    List.Perm (ids_restore noise) (List.range L) ∧
    (∀ i, i < L → (ids_restore noise).getD ((ids_shuffle noise).getD i 0) 0 = i) ∧
    (binMask L noise (len_keep L r)).sum = L - len_keep L r := by
  have hq0 : (0 : ℚ) ≤ (L : ℚ) * (1 - r) :=
    mul_nonneg (by positivity) (by linarith)
  have hfloor : len_keep L r = (⌊(L : ℚ) * (1 - r)⌋).toNat := by
    unfold len_keep
    rw [pyInt_eq_floor _ hq0]
  have hle : len_keep L r ≤ L := by
    rw [hfloor]
    have h1 : (L : ℚ) * (1 - r) ≤ (L : ℚ) := by nlinarith
    have h2 : ⌊(L : ℚ) * (1 - r)⌋ ≤ (L : ℤ) := by
      calc ⌊(L : ℚ) * (1 - r)⌋ ≤ ⌊(L : ℚ)⌋ := Int.floor_le_floor h1
        _ = (L : ℤ) := Int.floor_natCast L
    exact Int.toNat_le.mpr h2
  have hshuffle_perm : List.Perm (ids_shuffle noise) (List.range L) := by
    have h := argsort_perm 0 noise
    rwa [hlen] at h
  have hshuffle_len : (ids_shuffle noise).length = L := by
    simpa using hshuffle_perm.length_eq
  have hrestore_perm : List.Perm (ids_restore noise) (List.range L) := by
    have h := argsort_perm 0 (ids_shuffle noise)
    rwa [hshuffle_len] at h
  have hinv1 : ∀ k, k < L →
      (ids_shuffle noise).getD ((ids_restore noise).getD k 0) 0 = k :=
    fun k hk => getD_argsort_of_perm_range L _ hshuffle_perm k hk
  have hinv2 : ∀ i, i < L →
      (ids_restore noise).getD ((ids_shuffle noise).getD i 0) 0 = i :=
    right_inverse_flip L (fun k => (ids_shuffle noise).getD k 0)
      (fun k => (ids_restore noise).getD k 0)
      (fun i hi => getD_lt_of_perm_range L _ hshuffle_perm i hi)
      (fun k hk => getD_lt_of_perm_range L _ hrestore_perm k hk)
      hinv1
  refine ⟨hfloor, hle, hrestore_perm, hinv2, ?_⟩
  have htlen : (mask_template L (len_keep L r)).length = L := by
    unfold mask_template
    simp
  have hmaskperm : List.Perm (binMask L noise (len_keep L r))
      ((List.range L).map (fun j => (mask_template L (len_keep L r)).getD j 0)) := by
    unfold binMask gatherL
    exact hrestore_perm.map _
  have hmapeq : (List.range L).map (fun j => (mask_template L (len_keep L r)).getD j 0) =
      mask_template L (len_keep L r) := by
    have h := map_getD_range 0 (mask_template L (len_keep L r))
    rwa [htlen] at h
  rw [hmaskperm.sum_eq, hmapeq, sum_mask_template]

/-- Witness for C2 at `L = 2`, `r = 1/2`, noise row `[1, 0]`. -/
theorem random_masking_invariants_witness :
    len_keep 2 (1/2) = (⌊(2 : ℚ) * (1 - 1/2)⌋).toNat ∧
    len_keep 2 (1/2) ≤ 2 ∧
    List.Perm (ids_restore [1, 0]) (List.range 2) ∧
    (∀ i, i < 2 → (ids_restore [1, 0]).getD ((ids_shuffle [1, 0]).getD i 0) 0 = i) ∧
    (binMask 2 [1, 0] (len_keep 2 (1/2))).sum = 2 - len_keep 2 (1/2) :=
  random_masking_invariants 2 (1/2) [1, 0] rfl (by norm_num) (by norm_num)

/-- C4: for every image batch, prediction and mask whose sum is nonzero,
the reconstruction loss equals `sum(perPatchLoss * mask) / sum(mask)`;
and with a mask marking every patch removed (all ones) it equals the
unmasked mean squared error over all `N·L` patches. -/
theorem forward_loss_spec (p h N : ℕ) (imgs : ℕ → ℕ → ℕ → ℕ → ℚ)
    (pred : ℕ → ℕ → ℕ → ℚ) (mask : ℕ → ℕ → ℚ) (hN : 0 < N) (hh : 0 < h)
    (hden : ∑ n ∈ Finset.range N, ∑ l ∈ Finset.range (h * h), mask n l ≠ 0) :
    forward_loss p h N imgs pred mask =
      FVal.num ((∑ n ∈ Finset.range N, ∑ l ∈ Finset.range (h * h),
          perPatchLoss p h imgs pred n l * mask n l) /
        (∑ n ∈ Finset.range N, ∑ l ∈ Finset.range (h * h), mask n l)) ∧
    forward_loss p h N imgs pred (fun _ _ => 1) =
      FVal.num ((∑ n ∈ Finset.range N, ∑ l ∈ Finset.range (h * h),
          perPatchLoss p h imgs pred n l) / ((N : ℚ) * ((h * h : ℕ) : ℚ))) := by
  constructor
  · unfold forward_loss
    rw [if_neg hden]
  · unfold forward_loss
    have hden1 : (∑ n ∈ Finset.range N, ∑ l ∈ Finset.range (h * h), (1 : ℚ)) =
        (N : ℚ) * ((h * h : ℕ) : ℚ) := by
      simp [Finset.sum_const, mul_comm]
    have hne : (N : ℚ) * ((h * h : ℕ) : ℚ) ≠ 0 := by
      have : 0 < h * h := Nat.mul_pos hh hh
      positivity
    simp only [hden1, mul_one]
    rw [if_neg hne]

/-- Witness for C4: `p = h = N = 1`, zero image, unit prediction,
all-ones mask. -/
theorem forward_loss_spec_witness :
    forward_loss 1 1 1 (fun _ _ _ _ => 0) (fun _ _ _ => 1) (fun _ _ => 1) =
      FVal.num ((∑ n ∈ Finset.range 1, ∑ l ∈ Finset.range (1 * 1),
          perPatchLoss 1 1 (fun _ _ _ _ => 0) (fun _ _ _ => 1) n l * (fun (_ _ : ℕ) => (1:ℚ)) n l) /
        (∑ n ∈ Finset.range 1, ∑ l ∈ Finset.range (1 * 1), (fun (_ _ : ℕ) => (1:ℚ)) n l)) ∧
    forward_loss 1 1 1 (fun _ _ _ _ => 0) (fun _ _ _ => 1) (fun _ _ => 1) =
      FVal.num ((∑ n ∈ Finset.range 1, ∑ l ∈ Finset.range (1 * 1),
          perPatchLoss 1 1 (fun _ _ _ _ => 0) (fun _ _ _ => 1) n l) / ((1 : ℚ) * ((1 * 1 : ℕ) : ℚ))) :=
  forward_loss_spec 1 1 1 (fun _ _ _ _ => 0) (fun _ _ _ => 1) (fun _ _ => 1)
    (by decide) (by decide) (by norm_num)

/-- Counterexample to C7: with the all-kept mask (`mask ≡ 0`, mask sum
zero) `forward_loss` does not fail with a guarded precondition failure —
the division `0/0` silently evaluates to the value NaN and is returned. -/
theorem forward_loss_all_kept_counterexample :
    forward_loss 1 1 1 (fun _ _ _ _ => 0) (fun _ _ _ => 1) (fun _ _ => 0) = FVal.nan ∧
    FVal.isFinite FVal.nan = false :=
  ⟨by norm_num [forward_loss], rfl⟩

/-- C7 amended: for every input with an all-kept mask (all zeros on any
index range), `forward_loss` silently returns the non-finite value NaN
(numerator and denominator are both zero); the code contains no
precondition guard, the caller must guarantee `maskRatio > 0`. -/
theorem forward_loss_all_kept (p h N : ℕ) (imgs : ℕ → ℕ → ℕ → ℕ → ℚ)
    (pred : ℕ → ℕ → ℕ → ℚ) (mask : ℕ → ℕ → ℚ) (hmask : ∀ n l, mask n l = 0) :
    forward_loss p h N imgs pred mask = FVal.nan := by
  simp [forward_loss, hmask]

/-- Witness for the amended C7 at a concrete all-kept mask. -/
theorem forward_loss_all_kept_witness :
    forward_loss 2 2 3 (fun _ _ _ _ => 5) (fun _ _ _ => 7) (fun _ _ => 0) = FVal.nan :=
  forward_loss_all_kept 2 2 3 _ _ _ (fun _ _ => rfl)

/-- C3: if the loss of some batch is not finite (NaN/Inf),
`train_one_epoch` aborts the process at that batch: the run returns the
abort outcome carrying exactly the state reached after the finite-loss
prefix — no optimizer step is taken for the failing batch, the remaining
batches are never processed (no retry, no skip). -/
theorem train_one_epoch_nan_abort (accum : ℕ) (s0 : TrainState)
    (pre rest : List FVal) (bad : FVal)
    (hpre : ∀ l ∈ pre, l.isFinite = true) (hbad : bad.isFinite = false) :
    trainEpoch accum s0 (pre ++ bad :: rest) =
      Except.error (pre.foldl (fun s _ => stepOk accum s) s0) := by
  induction pre generalizing s0 with
  | nil =>
      simp [trainEpoch, trainBatch, hbad]
  | cons a pre ih =>
      have ha : a.isFinite = true := hpre a (List.mem_cons_self a pre)
      have hpre1 : ∀ l ∈ pre, l.isFinite = true :=
        fun l hl => hpre l (List.mem_cons_of_mem a hl)
      simp only [List.cons_append, trainEpoch, trainBatch, ha, if_true, List.foldl_cons]
      exact ih (stepOk accum s0) hpre1

/-- Witness for C3: two finite batches, then a NaN loss, with
`accum_iter = 2`: the process aborts after exactly one optimizer step. -/
theorem train_one_epoch_nan_abort_witness :
    trainEpoch 2 ⟨0, 0⟩ ([FVal.num 1, FVal.num 2] ++ FVal.nan :: [FVal.num 3]) =
      Except.error ([FVal.num 1, FVal.num 2].foldl (fun s _ => stepOk 2 s) ⟨0, 0⟩) :=
  train_one_epoch_nan_abort 2 ⟨0, 0⟩ [FVal.num 1, FVal.num 2] [FVal.num 3] FVal.nan
    (by decide) (by decide)

theorem window_filter_card (sqL wL wX wY : ℕ) (hsq : 0 < sqL)
    (hY : wY + wL ≤ sqL) (hX : wX + wL ≤ sqL) :
    ((Finset.range (sqL * sqL)).filter
      (fun i => wY ≤ i / sqL ∧ i / sqL < wY + wL ∧ wX ≤ i % sqL ∧ i % sqL < wX + wL)).card
      = wL * wL := by
  have hcard : ((Finset.Ico wY (wY + wL)) ×ˢ (Finset.Ico wX (wX + wL))).card = wL * wL := by
    rw [Finset.card_product, Nat.card_Ico, Nat.card_Ico,
      Nat.add_sub_cancel_left, Nat.add_sub_cancel_left]
  rw [← hcard]
  apply Finset.card_nbij' (fun i => (i / sqL, i % sqL)) (fun p => p.1 * sqL + p.2)
  · intro a ha
    rw [Finset.mem_filter] at ha
    rw [Finset.mem_product, Finset.mem_Ico, Finset.mem_Ico]
    exact ⟨⟨ha.2.1, ha.2.2.1⟩, ⟨ha.2.2.2.1, ha.2.2.2.2⟩⟩
  · intro p hp
    rw [Finset.mem_product, Finset.mem_Ico, Finset.mem_Ico] at hp
    obtain ⟨⟨hy1, hy2⟩, hx1, hx2⟩ := hp
    have hx : p.2 < sqL := lt_of_lt_of_le hx2 hX
    have hdiv : (p.1 * sqL + p.2) / sqL = p.1 := by
      rw [add_comm (p.1 * sqL) p.2, Nat.add_mul_div_right _ _ hsq,
        Nat.div_eq_of_lt hx, Nat.zero_add]
    have hmod : (p.1 * sqL + p.2) % sqL = p.2 := by
      rw [add_comm (p.1 * sqL) p.2, Nat.add_mul_mod_self_right,
        Nat.mod_eq_of_lt hx]
    rw [Finset.mem_filter, Finset.mem_range, hdiv, hmod]
    refine ⟨?_, hy1, hy2, hx1, hx2⟩
    calc p.1 * sqL + p.2 < p.1 * sqL + sqL := by omega
      _ = (p.1 + 1) * sqL := by ring
      _ ≤ sqL * sqL := Nat.mul_le_mul_right sqL (by omega)
  · intro a _
    exact Nat.div_add_mod' a sqL
  · intro p hp
    rw [Finset.mem_product, Finset.mem_Ico, Finset.mem_Ico] at hp
    have hx : p.2 < sqL := lt_of_lt_of_le hp.2.2 hX
    have hdiv : (p.1 * sqL + p.2) / sqL = p.1 := by
      rw [add_comm (p.1 * sqL) p.2, Nat.add_mul_div_right _ _ hsq,
        Nat.div_eq_of_lt hx, Nat.zero_add]
    have hmod : (p.1 * sqL + p.2) % sqL = p.2 := by
      rw [add_comm (p.1 * sqL) p.2, Nat.add_mul_mod_self_right,
        Nat.mod_eq_of_lt hx]
    rw [hdiv, hmod]

theorem block_marked_counts_core (sqL wL wX wY : ℕ) (hsq : 0 < sqL)
    (hY : wY + wL ≤ sqL) (hX : wX + wL ≤ sqL) :
    keptMarked true sqL wL wX wY = wL * wL ∧
    removedMarked true sqL wL wX wY = sqL * sqL - wL * wL ∧
    removedMarked false sqL wL wX wY = wL * wL ∧
    keptMarked false sqL wL wX wY = sqL * sqL - wL * wL := by
  have hwin := window_filter_card sqL wL wX wY hsq hY hX
  have hiff0 : ∀ y x, blockNoise true wL wX wY y x = 0 ↔
      (wY ≤ y ∧ y < wY + wL ∧ wX ≤ x ∧ x < wX + wL) := by
    intro y x
    unfold blockNoise
    split <;> simp_all
  have hiff1 : ∀ y x, blockNoise true wL wX wY y x = 1 ↔
      ¬ (wY ≤ y ∧ y < wY + wL ∧ wX ≤ x ∧ x < wX + wL) := by
    intro y x
    unfold blockNoise
    split <;> simp_all
  have hiff1f : ∀ y x, blockNoise false wL wX wY y x = 1 ↔
      (wY ≤ y ∧ y < wY + wL ∧ wX ≤ x ∧ x < wX + wL) := by
    intro y x
    unfold blockNoise
    split <;> simp_all
  have hiff0f : ∀ y x, blockNoise false wL wX wY y x = 0 ↔
      ¬ (wY ≤ y ∧ y < wY + wL ∧ wX ≤ x ∧ x < wX + wL) := by
    intro y x
    unfold blockNoise
    split <;> simp_all
  have hk : keptMarked true sqL wL wX wY = wL * wL := by
    unfold keptMarked
    rw [Finset.filter_congr (fun i _ => hiff0 (i / sqL) (i % sqL)), hwin]
  have hsplit := Finset.filter_card_add_filter_neg_card_eq_card
    (s := Finset.range (sqL * sqL))
    (p := fun i => wY ≤ i / sqL ∧ i / sqL < wY + wL ∧ wX ≤ i % sqL ∧ i % sqL < wX + wL)
  rw [Finset.card_range] at hsplit
  have hr : removedMarked true sqL wL wX wY = sqL * sqL - wL * wL := by
    unfold removedMarked
    rw [Finset.filter_congr (fun i _ => hiff1 (i / sqL) (i % sqL))]
    omega
  have hrf : removedMarked false sqL wL wX wY = wL * wL := by
    unfold removedMarked
    rw [Finset.filter_congr (fun i _ => hiff1f (i / sqL) (i % sqL)), hwin]
  have hkf : keptMarked false sqL wL wX wY = sqL * sqL - wL * wL := by
    unfold keptMarked
    rw [Finset.filter_congr (fun i _ => hiff0f (i / sqL) (i % sqL))]
    omega
  exact ⟨hk, hr, hrf, hkf⟩

theorem len_keep_2x2_34 : len_keep (2 * 2) (3/4) = 1 := by
  unfold len_keep
  rw [pyInt_eq_floor _ (by norm_num)]
  have h : ((2 * 2 : ℕ) : ℚ) * (1 - 3/4) = ((1 : ℤ) : ℚ) := by norm_num
  rw [h, Int.floor_intCast]
  rfl

theorem len_keep_4_half : len_keep 4 (1/2) = 2 := by
  unfold len_keep
  rw [pyInt_eq_floor _ (by norm_num)]
  have h : ((4 : ℕ) : ℚ) * (1 - 1/2) = ((2 : ℤ) : ℚ) := by norm_num
  rw [h, Int.floor_intCast]
  rfl

/-- Counterexample to C5: at the perfect-square length `L = 4` with mask
ratio `1/2`, `len_keep = 2`, the block-keep window has side
`floor(sqrt(2)) = 1` and marks exactly 1 position as kept — not
`len_keep = 2` — and the code's own sort-asserts
(src/models_mae.py:178-179) fail on this noise row. -/
theorem block_keep_count_counterexample :
    len_keep 4 (1/2) = 2 ∧
    Nat.sqrt (len_keep 4 (1/2)) = 1 ∧
    keptMarked true 2 1 0 0 = 1 ∧
    keptMarked true 2 1 0 0 ≠ len_keep 4 (1/2) ∧
    ¬ blockAssertOk (blockNoiseRow true 2 1 0 0) 2 := by
  refine ⟨len_keep_4_half, ?_, ?_, ?_, ?_⟩
  · rw [len_keep_4_half]
    norm_num
  · decide
  · rw [len_keep_4_half]
    decide
  · unfold blockAssertOk
    decide

/-- C5 amended: for every perfect-square length `L = sqL²`, ratio and
in-range window offsets, block-keep marks exactly
`floor(sqrt(lenKeep))²` positions kept (and the rest removed) and
block-remove marks exactly `floor(sqrt(L - lenKeep))²` positions removed
(and the rest kept); these equal `lenKeep` resp. `L - lenKeep` exactly
when those counts are perfect squares, which the code's asserts enforce
(otherwise `random_masking` raises before returning). -/
theorem block_masking_marked_counts (sqL : ℕ) (r : ℚ) (wX wY uX uY : ℕ)
    (hsq : 0 < sqL)
    (hkY : wY + Nat.sqrt (len_keep (sqL * sqL) r) ≤ sqL)
    (hkX : wX + Nat.sqrt (len_keep (sqL * sqL) r) ≤ sqL)
    (hrY : uY + Nat.sqrt (sqL * sqL - len_keep (sqL * sqL) r) ≤ sqL)
    (hrX : uX + Nat.sqrt (sqL * sqL - len_keep (sqL * sqL) r) ≤ sqL) :
    (keptMarked true sqL (Nat.sqrt (len_keep (sqL * sqL) r)) wX wY
        = Nat.sqrt (len_keep (sqL * sqL) r) * Nat.sqrt (len_keep (sqL * sqL) r) ∧
      removedMarked true sqL (Nat.sqrt (len_keep (sqL * sqL) r)) wX wY
        = sqL * sqL - Nat.sqrt (len_keep (sqL * sqL) r) * Nat.sqrt (len_keep (sqL * sqL) r)) ∧
    (removedMarked false sqL (Nat.sqrt (sqL * sqL - len_keep (sqL * sqL) r)) uX uY
        = Nat.sqrt (sqL * sqL - len_keep (sqL * sqL) r) *
            Nat.sqrt (sqL * sqL - len_keep (sqL * sqL) r) ∧
      keptMarked false sqL (Nat.sqrt (sqL * sqL - len_keep (sqL * sqL) r)) uX uY
        = sqL * sqL - Nat.sqrt (sqL * sqL - len_keep (sqL * sqL) r) *
            Nat.sqrt (sqL * sqL - len_keep (sqL * sqL) r)) := by
  have h1 := block_marked_counts_core sqL (Nat.sqrt (len_keep (sqL * sqL) r))
    wX wY hsq hkY hkX
  have h2 := block_marked_counts_core sqL
    (Nat.sqrt (sqL * sqL - len_keep (sqL * sqL) r)) uX uY hsq hrY hrX
  exact ⟨⟨h1.1, h1.2.1⟩, ⟨h2.2.2.1, h2.2.2.2⟩⟩

/-- Witness for the amended C5 at `sqL = 2`, `r = 3/4` (so
`len_keep = 1`, both windows of side 1, offsets 0). -/
theorem block_masking_marked_counts_witness :
    (keptMarked true 2 (Nat.sqrt (len_keep (2 * 2) (3/4))) 0 0
        = Nat.sqrt (len_keep (2 * 2) (3/4)) * Nat.sqrt (len_keep (2 * 2) (3/4)) ∧
      removedMarked true 2 (Nat.sqrt (len_keep (2 * 2) (3/4))) 0 0
        = 2 * 2 - Nat.sqrt (len_keep (2 * 2) (3/4)) * Nat.sqrt (len_keep (2 * 2) (3/4))) ∧
    (removedMarked false 2 (Nat.sqrt (2 * 2 - len_keep (2 * 2) (3/4))) 0 0
        = Nat.sqrt (2 * 2 - len_keep (2 * 2) (3/4)) *
            Nat.sqrt (2 * 2 - len_keep (2 * 2) (3/4)) ∧
      keptMarked false 2 (Nat.sqrt (2 * 2 - len_keep (2 * 2) (3/4))) 0 0
        = 2 * 2 - Nat.sqrt (2 * 2 - len_keep (2 * 2) (3/4)) *
            Nat.sqrt (2 * 2 - len_keep (2 * 2) (3/4))) :=
  block_masking_marked_counts 2 (3/4) 0 0 0 0 (by decide)
    (by rw [len_keep_2x2_34]; norm_num)
    (by rw [len_keep_2x2_34]; norm_num)
    (by rw [len_keep_2x2_34]; norm_num)
    (by rw [len_keep_2x2_34]; norm_num)

/-- C8: differentiate the full forward pass with respect to any one
encoder or decoder parameter θ: the head weights and bias do not depend
on θ (`∂w = ∂b = 0`), while `cls_feats` may depend on θ arbitrarily.
Because of the `detach`, every classification logit has derivative 0, so
the classification loss contributes zero gradient to every encoder and
decoder parameter by the chain rule.  The second conjunct gives the
logit derivative for an arbitrary parameter: it is
`Σ_j ∂w_ij · value(x_j) + ∂b_i`, i.e. classification gradients reach
only the head's own parameters, never flowing through `cls_feats`. -/
theorem fc_detach_grad (dEnc : ℕ) (w : ℕ → ℕ → ℚ × ℚ) (b : ℕ → ℚ × ℚ)
    (cls_feats : ℕ → ℚ × ℚ) (i : ℕ)
    (hw : ∀ j, (w i j).2 = 0) (hb : (b i).2 = 0) :
    (forward_cls_outputs dEnc w b cls_feats i).2 = 0 ∧
    (∀ w2 : ℕ → ℕ → ℚ × ℚ, ∀ b2 : ℕ → ℚ × ℚ,
      (forward_cls_outputs dEnc w2 b2 cls_feats i).2 =
        (∑ j ∈ Finset.range dEnc, (w2 i j).2 * (cls_feats j).1) + (b2 i).2) := by
  have hgen : ∀ w2 : ℕ → ℕ → ℚ × ℚ, ∀ b2 : ℕ → ℚ × ℚ,
      (forward_cls_outputs dEnc w2 b2 cls_feats i).2 =
        (∑ j ∈ Finset.range dEnc, (w2 i j).2 * (cls_feats j).1) + (b2 i).2 := by
    intro w2 b2
    unfold forward_cls_outputs fc
    rw [Prod.snd_add, Prod.snd_sum]
    congr 1
    apply Finset.sum_congr rfl
    intro j _
    simp [dMul, detach]
  refine ⟨?_, hgen⟩
  rw [hgen w b]
  rw [hb]
  rw [Finset.sum_congr rfl (fun j _ => by rw [hw j, zero_mul])]
  simp

/-- Witness for C8: one-dimensional feature `(5, 7)` (value 5, nonzero
derivative 7 w.r.t. the encoder parameter), head weight `(2, 0)`, bias
`(3, 0)`. -/
theorem fc_detach_grad_witness :
    (forward_cls_outputs 1 (fun _ _ => (2, 0)) (fun _ => (3, 0)) (fun _ => (5, 7)) 0).2 = 0 ∧
    (∀ w2 : ℕ → ℕ → ℚ × ℚ, ∀ b2 : ℕ → ℚ × ℚ,
      (forward_cls_outputs 1 w2 b2 (fun _ => (5, 7)) 0).2 =
        (∑ j ∈ Finset.range 1, (w2 0 j).2 * ((fun (_ : ℕ) => ((5 : ℚ), (7 : ℚ))) j).1) + (b2 0).2) :=
  fc_detach_grad 1 (fun _ _ => (2, 0)) (fun _ => (3, 0)) (fun _ => (5, 7)) 0
    (fun _ => rfl) rfl

/-- Counterexample to C9: with the (non-idempotent) norm `q ↦ q + 1` and
a single post-blocks token `0`, the non-pooled classification feature
computed by `forward` is `2` — the norm applied twice — while the final
normalization applied exactly once to the encoder output gives `1`. -/
theorem cls_feats_double_norm_counterexample :
    forward_cls_feats false (fun q => q + 1) id
        (encoder_latent (fun q => q + 1) [0]) = 2 ∧
    (encoder_latent (fun q => q + 1) [0]).getD 0 0 = 1 ∧
    (2 : ℚ) ≠ 1 := by
  refine ⟨?_, ?_, by norm_num⟩
  · norm_num [forward_cls_feats, encoder_latent]
  · norm_num [encoder_latent]

/-- C9 amended: the feature passed to the head is the class-token row of
`self.norm` applied to the (already once-normalized) encoder output when
pooling is disabled — the final normalization is applied twice on this
path — and `fc_norm` of the global average of the non-class tokens of
the once-normalized output when pooling is enabled. -/
theorem cls_feats_selection (normF fcNorm : ℚ → ℚ) (z : List ℚ) (hz : z ≠ []) :
    forward_cls_feats false normF fcNorm (encoder_latent normF z) =
      normF (normF (z.getD 0 0)) ∧
    forward_cls_feats true normF fcNorm (encoder_latent normF z) =
      fcNorm (((encoder_latent normF z).drop 1).sum /
        (((encoder_latent normF z).drop 1).length : ℚ)) := by
  constructor
  · cases z with
    | nil => exact absurd rfl hz
    | cons a t => simp [forward_cls_feats, encoder_latent]
  · simp [forward_cls_feats]

/-- Witness for the amended C9 at `z = [3]`, norm `q ↦ q + 1`. -/
theorem cls_feats_selection_witness :
    forward_cls_feats false (fun q => q + 1) id
        (encoder_latent (fun q => q + 1) [3]) =
      (fun q => q + 1) ((fun q => q + 1) (([3] : List ℚ).getD 0 0)) ∧
    forward_cls_feats true (fun q => q + 1) id
        (encoder_latent (fun q => q + 1) [3]) =
      id (((encoder_latent (fun q => q + 1) [3]).drop 1).sum /
        ((((encoder_latent (fun q => q + 1) [3]).drop 1).length : ℕ) : ℚ)) :=
  cls_feats_selection (fun q => q + 1) id [3] (by simp)

/-- C10: for every sequence length and every string value of
`cls_features` (including the default `"cls"`), the evaluation path for
an MAE model reaches `int(L * (1 - mask_ratio))` with a string bound to
`mask_ratio` and raises a `TypeError` — evaluation of an MAE model never
completes normally, for every batch. -/
theorem evaluate_mae_type_error (L : ℕ) (s : String) :
    evaluate_mae_len_keep L s = Except.error "TypeError" := rfl

theorem gatherL_length {α : Type} (x : List α) (ids : List ℕ) (d : α) :
    (gatherL x ids d).length = ids.length := by
  simp [gatherL]

theorem gatherL_getD {α : Type} (x : List α) (ids : List ℕ) (d : α)
    (j : ℕ) (hj : j < ids.length) :
    (gatherL x ids d).getD j d = x.getD (ids.getD j 0) d := by
  unfold gatherL
  rw [List.getD_eq_getElem _ _ (by simpa using hj), List.getElem_map,
    List.getD_eq_getElem _ _ hj]

/-- `torch.argsort(ids_restore)` recovers `ids_shuffle`
(src/models_mae.py:293): argsorting the inverse permutation gives back
the original shuffle. -/
theorem argsort_ids_restore_eq (L : ℕ) (noise : List ℚ) (hlen : noise.length = L) :
    argsort 0 (ids_restore noise) = ids_shuffle noise := by
  have hS : List.Perm (ids_shuffle noise) (List.range L) := by
    have h := argsort_perm 0 noise
    rwa [hlen] at h
  have hSlen : (ids_shuffle noise).length = L := by simpa using hS.length_eq
  have hR : List.Perm (ids_restore noise) (List.range L) := by
    have h := argsort_perm 0 (ids_shuffle noise)
    rwa [hSlen] at h
  have hRlen : (ids_restore noise).length = L := by simpa using hR.length_eq
  have hslen : (argsort 0 (ids_restore noise)).length = L := by
    rw [argsort_length]
    exact hRlen
  have hs : List.Perm (argsort 0 (ids_restore noise)) (List.range L) := by
    have h := argsort_perm 0 (ids_restore noise)
    rwa [hRlen] at h
  apply List.ext_getElem (by rw [hslen, hSlen])
  intro m hm1 hm2
  have hmL : m < L := by rwa [hslen] at hm1
  have hsm_lt : (argsort 0 (ids_restore noise)).getD m 0 < L :=
    getD_lt_of_perm_range L _ hs m hmL
  have key : (ids_shuffle noise).getD
      ((ids_restore noise).getD ((argsort 0 (ids_restore noise)).getD m 0) 0) 0 =
      (argsort 0 (ids_restore noise)).getD m 0 :=
    getD_argsort_of_perm_range L _ hS _ hsm_lt
  have h_Rs : (ids_restore noise).getD ((argsort 0 (ids_restore noise)).getD m 0) 0 = m :=
    getD_argsort_of_perm_range L _ hR m hmL
  rw [h_Rs] at key
  rw [← List.getD_eq_getElem _ 0 hm1, ← List.getD_eq_getElem _ 0 hm2]
  exact key.symm

theorem decoder_unshuffle_length {β : Type} (x1 : List β) (maskTok : β)
    (ids_restore : List ℕ) (dflt : β) :
    (decoder_unshuffle x1 maskTok ids_restore dflt).length = ids_restore.length := by
  simp [decoder_unshuffle, gatherL]

/-- C6: decoder invariants (src/models_mae.py:225-305), driven by the
masking model: the encoder output is `x = cls :: keptTokens` with
`k ≤ L` kept patches, kept token `m` being `tok (ids_shuffle[m])`
(`tok n` = the embedded token of patch `n`); the transformer-block
stacks, norms and projections are opaque length-preserving
collaborators.
(i) `forward_decoder` returns a sequence of length exactly `L`,
regardless of the mask ratio;
(ii) its unshuffle stage restores original patch order: position `j`
holds the kept token of patch `j` when patch `j` was kept
(`ids_restore[j] < k`) and the placeholder token otherwise;
(iii) `forward_l_decoder` returns a sequence of length exactly
`tokenCount - 1 = k` (the code's own assert at src/models_mae.py:304),
valued in the encoder token space;
(iv) the latent decoder's output is its body gathered along the first
`k` entries of the original `ids_shuffle` — aligned to the kept-token
ordering, not original patch order. -/
theorem decoder_shape_invariants {α β γ β2 : Type} [Add β] [Add β2]
    (L k : ℕ) (noise : List ℚ) (hnoise : noise.length = L) (hk : k ≤ L)
    (cls : α) (tok : ℕ → α)
    (embedF : α → β) (maskTok : β) (posEmb : List β)
    (blocks : List β → List β) (normF : β → β) (predF : β → γ) (dflt : β)
    (hpos : posEmb.length = L + 1)
    (hblocks : ∀ l, (blocks l).length = l.length)
    (embedF2 : α → β2) (maskTok2 : β2) (posEmb2 : List β2)
    (blocks2 : List β2 → List β2) (normF2 : β2 → β2) (predF2 : β2 → α) (dflt2 : α) :
    (forward_decoder embedF maskTok posEmb blocks normF predF dflt
        (cls :: ((ids_shuffle noise).take k).map tok) (ids_restore noise)).length = L ∧
    (∀ j, j < L →
      (decoder_unshuffle ((cls :: ((ids_shuffle noise).take k).map tok).map embedF)
          maskTok (ids_restore noise) dflt).getD j dflt =
        if (ids_restore noise).getD j 0 < k then embedF (tok j) else maskTok) ∧
    (forward_l_decoder embedF2 maskTok2 posEmb2 blocks2 normF2 predF2 dflt2
        (cls :: ((ids_shuffle noise).take k).map tok) (ids_restore noise)).length = k ∧
    forward_l_decoder embedF2 maskTok2 posEmb2 blocks2 normF2 predF2 dflt2
        (cls :: ((ids_shuffle noise).take k).map tok) (ids_restore noise) =
      gatherL (l_decoder_body embedF2 maskTok2 posEmb2 blocks2 normF2 predF2
          (cls :: ((ids_shuffle noise).take k).map tok) (ids_restore noise))
        ((ids_shuffle noise).take k) dflt2 := by
  have hS : List.Perm (ids_shuffle noise) (List.range L) := by
    have h := argsort_perm 0 noise
    rwa [hnoise] at h
  have hSlen : (ids_shuffle noise).length = L := by simpa using hS.length_eq
  have hR : List.Perm (ids_restore noise) (List.range L) := by
    have h := argsort_perm 0 (ids_shuffle noise)
    rwa [hSlen] at h
  have hRlen : (ids_restore noise).length = L := by simpa using hR.length_eq
  refine ⟨?_, ?_, ?_, ?_⟩
  · simp only [forward_decoder, List.length_drop, List.length_map, hblocks,
      List.length_zipWith, hpos, List.length_append, List.length_take,
      decoder_unshuffle_length, hRlen, List.length_cons, hSlen]
    omega
  · intro j hj
    have hjR : j < (ids_restore noise).length := by
      rw [hRlen]
      exact hj
    unfold decoder_unshuffle
    rw [gatherL_getD _ _ _ j hjR]
    have hmlt : (ids_restore noise).getD j 0 < L := getD_lt_of_perm_range L _ hR j hj
    set m := (ids_restore noise).getD j 0 with hm
    have hx1 : ((cls :: ((ids_shuffle noise).take k).map tok).map embedF) =
        embedF cls :: ((ids_shuffle noise).take k).map (fun n => embedF (tok n)) := by
      simp [List.map_map, Function.comp_def]
    rw [hx1]
    have hkeep_len : (((ids_shuffle noise).take k).map (fun n => embedF (tok n))).length = k := by
      simp only [List.length_map, List.length_take, hSlen]
      omega
    simp only [List.drop_succ_cons, List.drop_zero, List.length_cons, hkeep_len, hRlen]
    have hcount : L + 1 - (k + 1) = L - k := by omega
    rw [hcount]
    by_cases hmk : m < k
    · rw [if_pos hmk]
      rw [List.getD_append _ _ _ _ (by rw [hkeep_len]; exact hmk)]
      have hmtake : m < (((ids_shuffle noise).take k).map (fun n => embedF (tok n))).length := by
        rw [hkeep_len]
        exact hmk
      rw [List.getD_eq_getElem _ _ hmtake, List.getElem_map, List.getElem_take]
      have hmS : m < (ids_shuffle noise).length := by
        rw [hSlen]
        exact lt_of_lt_of_le hmk hk
      rw [← List.getD_eq_getElem _ 0 hmS]
      have hSm : (ids_shuffle noise).getD m 0 = j := by
        rw [hm]
        exact getD_argsort_of_perm_range L _ hS j hj
      rw [hSm]
    · rw [if_neg hmk]
      push_neg at hmk
      rw [List.getD_append_right _ _ _ _ (by rw [hkeep_len]; exact hmk)]
      rw [hkeep_len]
      rw [List.getD_eq_getElem _ _ (by simp only [List.length_replicate]; omega)]
      simp
  · simp only [forward_l_decoder, gatherL_length, List.length_take, argsort_length,
      hRlen, List.length_cons, List.length_map, hSlen]
    omega
  · unfold forward_l_decoder
    rw [argsort_ids_restore_eq L noise hnoise]
    have hxlen : (cls :: ((ids_shuffle noise).take k).map tok).length - 1 = k := by
      simp only [List.length_cons, List.length_map, List.length_take, hSlen]
      omega
    rw [hxlen]

/-- Witness for C6 at `L = 2`, one kept patch (`k = 1`), noise `[1, 0]`,
identity collaborators, scalar tokens. -/
theorem decoder_shape_invariants_witness :
    (forward_decoder (id : ℚ → ℚ) 99 [0, 0, 0] (fun l => l) id id 0
        ((5 : ℚ) :: ((ids_shuffle [1, 0]).take 1).map (fun n => (n : ℚ) + 10))
        (ids_restore [1, 0])).length = 2 ∧
    (∀ j, j < 2 →
      (decoder_unshuffle
          (((5 : ℚ) :: ((ids_shuffle [1, 0]).take 1).map (fun n => (n : ℚ) + 10)).map id)
          99 (ids_restore [1, 0]) 0).getD j 0 =
        if (ids_restore [1, 0]).getD j 0 < 1 then id ((fun n => (n : ℚ) + 10) j) else 99) ∧
    (forward_l_decoder (id : ℚ → ℚ) 98 [0, 0, 0] (fun l => l) id id 0
        ((5 : ℚ) :: ((ids_shuffle [1, 0]).take 1).map (fun n => (n : ℚ) + 10))
        (ids_restore [1, 0])).length = 1 ∧
    forward_l_decoder (id : ℚ → ℚ) 98 [0, 0, 0] (fun l => l) id id 0
        ((5 : ℚ) :: ((ids_shuffle [1, 0]).take 1).map (fun n => (n : ℚ) + 10))
        (ids_restore [1, 0]) =
      gatherL (l_decoder_body (id : ℚ → ℚ) 98 [0, 0, 0] (fun l => l) id id
          ((5 : ℚ) :: ((ids_shuffle [1, 0]).take 1).map (fun n => (n : ℚ) + 10))
          (ids_restore [1, 0]))
        ((ids_shuffle [1, 0]).take 1) 0 :=
  decoder_shape_invariants 2 1 [1, 0] rfl (by decide) 5 (fun n => (n : ℚ) + 10)
    id 99 [0, 0, 0] (fun l => l) id id 0 rfl (fun _ => rfl)
    id 98 [0, 0, 0] (fun l => l) id id 0
